import Mathlib

/-!
Shallow embedding of `src/cleanup.py` (`clean_signup_data`): a three-pass
record-classification pipeline over an in-memory list of signup rows.

Pass (a) standardizes `signup_date` (pandas `to_datetime` + `strftime('%Y-%m-%d')`),
pass (b) resolves duplicate emails keeping the most recent record per group,
pass (c) validates email shape, synthetic names and required fields.
Records are addressed by their original index; a shared mutable list
`quarantined_records` accumulates the indices routed to quarantine.

String cells are modelled over `List Char` (Python `str`); the pandas date
parser, which is external-library code, is modelled on ISO `YYYY-MM-DD`
shaped inputs (the only shapes the development evaluates it on).
-/

namespace Cleanup

/-- An input row of the signup table: the three required columns, all string
cells as in the source dataframe (a missing cell is an empty string). -/
structure Row where
  name : String
  email : String
  signup_date : String
deriving DecidableEq, Repr, Inhabited

/-- A calendar date as produced by date parsing (pandas timestamps restricted
to year/month/day, which is all `strftime('%Y-%m-%d')` renders). -/
structure Date where
  year : Nat
  month : Nat
  day : Nat
deriving DecidableEq, Repr

/-- Numeric key giving the `datetime` comparison order on parsed dates
(lexicographic on year, month, day; faithful because parsing bounds
month ≤ 12 and day ≤ 31). -/
def dateVal (d : Date) : Nat := d.year * 10000 + d.month * 100 + d.day

/-- ASCII lower-casing of one character (Python `str.lower` on the ASCII
range used by the data). -/
def lowerChar (c : Char) : Char :=
  if 'A' ≤ c && c ≤ 'Z' then Char.ofNat (c.toNat + 32) else c

/-- Whitespace as stripped by Python `str.strip`. -/
def isSpaceChar (c : Char) : Bool :=
  c == ' ' || c == '\t' || c == '\n' || c == '\r'

/-- Python `str.strip`: drop whitespace from both ends. -/
def trimChars (l : List Char) : List Char :=
  ((l.dropWhile isSpaceChar).reverse.dropWhile isSpaceChar).reverse

/-- Python `str.split(sep)` for a one-character separator. -/
def splitOnChar (sep : Char) : List Char → List (List Char)
  | [] => [[]]
  | c :: cs =>
    match splitOnChar sep cs with
    | [] => [[]]
    | g :: gs => if c == sep then [] :: g :: gs else (c :: g) :: gs

/-- Whether `pat` is a prefix of `l` (helper for the substring test). -/
def isPrefixL : List Char → List Char → Bool
  | [], _ => true
  | _ :: _, [] => false
  | a :: as, b :: bs => a == b && isPrefixL as bs

/-- Python `pat in s` on strings: `pat` occurs as a contiguous substring. -/
def containsSeq (pat : List Char) : List Char → Bool
  | [] => isPrefixL pat []
  | c :: rest => isPrefixL pat (c :: rest) || containsSeq pat rest

/-- Digit character `48 + n % 10`, as printed by `strftime` zero-padding. -/
def digitChar (n : Nat) : Char := Char.ofNat (48 + n % 10)

/-- Two-digit zero-padded rendering (`%m`, `%d`). -/
def pad2 (n : Nat) : List Char := [digitChar (n / 10), digitChar n]

/-- Four-digit zero-padded rendering (`%Y` for years up to 9999). -/
def pad4 (n : Nat) : List Char :=
  [digitChar (n / 1000), digitChar (n / 100), digitChar (n / 10), digitChar n]

/-- `strftime('%Y-%m-%d')` on a parsed date. -/
def formatDate (d : Date) : List Char :=
  pad4 d.year ++ '-' :: (pad2 d.month ++ '-' :: pad2 d.day)

/-- Fold a run of decimal digits into a number; any non-digit aborts. -/
def parseNatAcc : List Char → Nat → Option Nat
  | [], acc => some acc
  | c :: cs, acc =>
    if c.isDigit then parseNatAcc cs (10 * acc + (c.toNat - 48)) else none

/-- Parse a non-empty all-digit run. -/
def parseDigits : List Char → Option Nat
  | [] => none
  | c :: cs => parseNatAcc (c :: cs) 0

/-- Models `pandas.to_datetime(value, errors='coerce')` (external library
code) on the ISO `YYYY-MM-DD`-shaped strings this development evaluates it
on: strip whitespace, split on `-`, require three non-empty digit runs with
year ≤ 9999, 1 ≤ month ≤ 12 and 1 ≤ day ≤ 31; anything else coerces to
`NaT`, i.e. `none`. -/
def pdParseDate (s : String) : Option Date :=
  match splitOnChar '-' (trimChars s.data) with
  | [ys, ms, ds] =>
    match parseDigits ys, parseDigits ms, parseDigits ds with
    | some y, some m, some d =>
      if y ≤ 9999 && 1 ≤ m && m ≤ 12 && 1 ≤ d && d ≤ 31 then
        some ⟨y, m, d⟩
      else none
    | _, _, _ => none
  | _ => none

/-! ### Pass (a): date standardization (cleanup.py lines 34-49)

The loop handles each row independently: on parse success it stores the
standardized date at the row's index, on failure (`NaT` or exception) it
appends the row index to `quarantined_records`, so the pass is the map of
the parser over the rows plus the index-ordered list of failures. -/

/-- The `signup_date_standardized` column after pass (a): per-index parse
result (`none` models the `None` cell of a failed parse). -/
def stdOf (rows : List Row) : List (Option Date) :=
  rows.map (fun r => pdParseDate r.signup_date)

/-- `quarantined_records` after pass (a): the indices whose date failed to
parse, appended in index order. -/
def qaOf (rows : List Row) : List Nat :=
  (List.range rows.length).filter (fun i => ((stdOf rows).getD i none).isNone)

/-! ### Pass (b): duplicate resolution (cleanup.py lines 51-82) -/

/-- The survivor-selection loop body state: `recent_idx` and
`most_recent_date` (always `none` or `some` together in the source, hence one
optional pair). An index is considered only if not quarantined and its
standardized date is set; a candidate replaces the current best only on a
strictly greater date. -/
def selStep (std : List (Option Date)) (q : List Nat)
    (acc : Option (Nat × Date)) (i : Nat) : Option (Nat × Date) :=
  if q.contains i then acc
  else
    match std.getD i none with
    | none => acc
    | some d =>
      match acc with
      | none => some (i, d)
      | some (b, bd) => if dateVal bd < dateVal d then some (i, d) else some (b, bd)

def selectAux (std : List (Option Date)) (q : List Nat) :
    List Nat → Option (Nat × Date) → Option (Nat × Date)
  | [], acc => acc
  | i :: t, acc => selectAux std q t (selStep std q acc i)

/-- `recent_idx` for one email group (cleanup.py lines 63-73). -/
def selectSurvivor (std : List (Option Date)) (q : List Nat) (idxs : List Nat) :
    Option Nat :=
  (selectAux std q idxs none).map (fun p => p.1)

/-- The quarantine loop for one group (cleanup.py lines 76-78): append every
member other than the survivor that is not already quarantined. -/
def quarantineOthers (recent : Option Nat) : List Nat → List Nat → List Nat
  | [], q => q
  | i :: t, q =>
    quarantineOthers recent t
      (if recent != some i && !(q.contains i) then q ++ [i] else q)

/-- Processing of one email group (cleanup.py lines 57-82): groups of size
at most one are left untouched; otherwise select the survivor, quarantine the
others, and set `is_multi_plan` on the survivor when one exists. -/
def processGroup (std : List (Option Date)) (idxs : List Nat)
    (st : List Bool × List Nat) : List Bool × List Nat :=
  if 1 < idxs.length then
    (match selectSurvivor std st.2 idxs with
     | some i => st.1.set i true
     | none => st.1,
     quarantineOthers (selectSurvivor std st.2 idxs) idxs st.2)
  else st

/-- The member indices of one email group: all row indices whose raw `email`
cell equals the key (pandas `groupby('email').groups`, original order). -/
def groupIdxs (rows : List Row) (e : String) : List Nat :=
  (List.range rows.length).filter (fun i => (rows.getD i default).email == e)

/-- First-occurrence deduplication of the key list, with an accumulator of
keys already seen. -/
def dedupKeys : List String → List String → List String
  | [], _ => []
  | e :: t, seen =>
    if seen.contains e then dedupKeys t seen else e :: dedupKeys t (e :: seen)

/-- The distinct email keys. `pandas.groupby` iterates keys in sorted order;
since the groups are pairwise disjoint and each group's processing touches
only its own members, the key order affects only the append order inside
`quarantined_records`, never its membership, the flags, or the outputs keyed
by index, so the keys are modelled in first-occurrence order. -/
def emailKeys (rows : List Row) : List String :=
  dedupKeys (rows.map (fun r => r.email)) []

/-- The loop over email groups (cleanup.py lines 57-82). -/
def resolveList (rows : List Row) (std : List (Option Date)) :
    List String → List Bool × List Nat → List Bool × List Nat
  | [], st => st
  | e :: t, st => resolveList rows std t (processGroup std (groupIdxs rows e) st)

/-- State (`is_multi_plan` column, `quarantined_records`) after pass (b);
the flag column is initialized all-`False` (cleanup.py line 28). -/
def multiQb (rows : List Row) : List Bool × List Nat :=
  resolveList rows (stdOf rows) (emailKeys rows)
    (rows.map (fun _ => false), qaOf rows)

/-- The `is_multi_plan` column after pass (b) (never changed afterwards). -/
def multiOf (rows : List Row) : List Bool := (multiQb rows).1

/-- `quarantined_records` after pass (b). -/
def qbOf (rows : List Row) : List Nat := (multiQb rows).2

/-! ### Pass (c): validation (cleanup.py lines 84-107) -/

/-- The normalized email of the check: `str(row.get('email','')).strip().lower()`
(lower-casing commutes with stripping on these characters; the source lowers
first). -/
def emailNorm (r : Row) : List Char := trimChars (r.email.data.map lowerChar)

/-- Check 1 (cleanup.py lines 90-94) exactly as coded: quarantine when the
normalized email is empty, or has no `'@'`, or — the faithful rendering of
`'.' not in email.split('@')[1:]`, a membership test on the LIST of
components — no component after the first `'@'` is the one-character string
`"."`. -/
def emailCheckFails (r : Row) : Bool :=
  let e := emailNorm r
  e.isEmpty || !(e.contains '@') || !((splitOnChar '@' e).tail.contains ['.'])

/-- The fixed synthetic-name blocklist (cleanup.py line 98). -/
def testIndicators : List (List Char) :=
  ["test".data, "dummy".data, "abc".data, "sample".data, "demo".data,
   "placeholder".data]

/-- The normalized name of check 2. -/
def nameNorm (r : Row) : List Char := trimChars (r.name.data.map lowerChar)

/-- Check 2 (cleanup.py lines 96-101): case-insensitive substring match
against the blocklist. -/
def nameCheckFails (r : Row) : Bool :=
  testIndicators.any (fun pat => containsSeq pat (nameNorm r))

/-- A blank cell in the completeness check: `pd.isna(...)` is always false on
the string cells of this model, so only `str(...).strip() == ''` remains. -/
def blankStr (l : List Char) : Bool := (trimChars l).isEmpty

/-- Check 3 (cleanup.py lines 103-107): `name`, `email` and
`signup_date_standardized` must be present and non-blank; the standardized
cell is `None` (`pd.isna` true) or a formatted date string. -/
def fieldsCheckFails (r : Row) (std : Option Date) : Bool :=
  blankStr r.name.data || blankStr r.email.data ||
    (match std with
     | none => true
     | some d => blankStr (formatDate d))

/-- One row's validation outcome, with the source's fixed order and
short-circuiting: email shape first, then synthetic name, then completeness. -/
def failsValidation (r : Row) (std : Option Date) : Bool :=
  emailCheckFails r || (nameCheckFails r || fieldsCheckFails r std)

/-- One iteration of the validation loop (cleanup.py lines 86-107): skip
already-quarantined rows, else append on the first failing check. -/
def validateStep (rows : List Row) (std : List (Option Date))
    (q : List Nat) (i : Nat) : List Nat :=
  if q.contains i then q
  else if failsValidation (rows.getD i default) (std.getD i none) then q ++ [i]
  else q

/-- The validation loop over a list of row indices. -/
def validateList (rows : List Row) (std : List (Option Date)) :
    List Nat → List Nat → List Nat
  | [], q => q
  | i :: t, q => validateList rows std t (validateStep rows std q i)

/-- `quarantined_records` after pass (c). -/
def qcOf (rows : List Row) : List Nat :=
  validateList rows (stdOf rows) (List.range rows.length) (qbOf rows)

/-! ### Partition and outputs (cleanup.py lines 109-139) -/

/-- The full in-memory state after the three passes. -/
structure PipeResult where
  rows : List Row
  std : List (Option Date)
  multi : List Bool
  q : List Nat
deriving Repr

/-- `clean_signup_data` without the I/O wrapper: the three passes over the
row list. -/
def pipeline (rows : List Row) : PipeResult :=
  ⟨rows, stdOf rows, multiOf rows, qcOf rows⟩

/-- The clean partition (cleanup.py lines 113-114): indices not quarantined
and with a standardized date, in index order. -/
def cleanIndices (p : PipeResult) : List Nat :=
  (List.range p.rows.length).filter
    (fun i => !(p.q.contains i) && (p.std.getD i none).isSome)

/-- One output row after column selection: the original three cells, the
appended `is_multi_plan` flag, and the standardized-date column (renamed to
`signup_date` in the output header) as an optional formatted string. -/
structure OutRow where
  name : String
  email : String
  signup_date_raw : String
  is_multi_plan : Bool
  signup_date_std : Option String
deriving DecidableEq, Repr

/-- Project one index to its output row. -/
def outRow (p : PipeResult) (i : Nat) : OutRow :=
  let r := p.rows.getD i default
  ⟨r.name, r.email, r.signup_date, p.multi.getD i false,
    (p.std.getD i none).map (fun d => String.mk (formatDate d))⟩

/-- The clean output table (cleanup.py line 115 restricted to the selected
columns). -/
def cleanOut (p : PipeResult) : List OutRow := (cleanIndices p).map (outRow p)

/-- The quarantined output table (cleanup.py line 110). -/
def quarantinedOut (p : PipeResult) : List OutRow := p.q.map (outRow p)

/-- The input header for the fixed schema. -/
def inputColumns : List String := ["name", "email", "signup_date"]

/-- The dataframe header after the metadata columns are added, in insertion
order (cleanup.py lines 27, 28, 36). -/
def dfColumns : List String :=
  inputColumns ++ ["original_index", "is_multi_plan", "signup_date_standardized"]

/-- `original_columns` (cleanup.py lines 118-120): drop the two helper
columns, then re-append `signup_date_standardized` (the guard is always
true, having just filtered it out). -/
def originalColumns : List String :=
  let base :=
    dfColumns.filter
      (fun c => !(["original_index", "signup_date_standardized"].contains c))
  if !(base.contains "signup_date_standardized") then
    base ++ ["signup_date_standardized"]
  else base

/-- The output header after the rename (cleanup.py lines 126-127):
`signup_date_standardized` becomes `signup_date`, while the original raw
`signup_date` column is still present. -/
def outputColumns : List String :=
  originalColumns.map
    (fun c => if c == "signup_date_standardized" then "signup_date" else c)

/-- Eligibility of an index in survivor selection: not yet quarantined and
with a standardized date. -/
def Elig (std : List (Option Date)) (q : List Nat) (j : Nat) (d : Date) : Prop :=
  j ∉ q ∧ std.getD j none = some d

/-- Specification of the selection accumulator over a processed prefix:
either no eligible index was seen, or the accumulator holds the first
eligible index attaining the running maximum date (strictly greater than
everything before it, at least everything after it). -/
def SelSpec (std : List (Option Date)) (q : List Nat) (pre : List Nat) :
    Option (Nat × Date) → Prop
  | none => ∀ j ∈ pre, ∀ d, ¬ Elig std q j d
  | some (i, d) =>
      Elig std q i d ∧
      ∃ l1 l2, pre = l1 ++ i :: l2 ∧
        (∀ j ∈ l1, ∀ dj, Elig std q j dj → dateVal dj < dateVal d) ∧
        (∀ j ∈ l2, ∀ dj, Elig std q j dj → dateVal dj ≤ dateVal d)

/-- The parsing bounds carried by every successfully parsed date. -/
def ValidDate (d : Date) : Prop :=
  d.year ≤ 9999 ∧ 1 ≤ d.month ∧ d.month ≤ 12 ∧ 1 ≤ d.day ∧ d.day ≤ 31

/-- Substring after the first `@`, the spec's "domain portion". -/
def afterFirstAt : List Char → List Char
  | [] => []
  | c :: t => if c == '@' then t else afterFirstAt t

/-- Stated from the spec's words, for comparison with the code's email
check: valid means non-empty after trimming/lowercasing, contains `@`, and
the domain portion (the substring after the `@`) contains a `.`; `true`
means the record fails the check and is quarantined. -/
def specEmailInvalid (email : String) : Bool :=
  let e := trimChars (email.data.map lowerChar)
  e.isEmpty || !(e.contains '@') || !((afterFirstAt e).contains '.')

/-- Reading an output row back as pipeline input: the output's date column
is the standardized one (the column renamed to `signup_date` for output);
for clean rows it is always set, the raw original is only a fallback. -/
def rerunRow (o : OutRow) : Row :=
  ⟨o.name, o.email, o.signup_date_std.getD o.signup_date_raw⟩

/-- A one-row dataset that survives the pipeline untouched (its email passes
the code's membership-style domain test because the part after `@` is
exactly `"."`). -/
def rowsW : List Row := [⟨"Maria", "a@.", "2023-05-02"⟩]

/-- The spec's duplicate example: two rows sharing `a@b.com` with valid,
non-synthetic names and dates `2023-01-01` and `2023-06-15`. -/
def rowsC6 : List Row :=
  [⟨"Maria Lopez", "a@b.com", "2023-01-01"⟩,
   ⟨"Maria Lopez", "a@b.com", "2023-06-15"⟩]

/-- Two duplicate rows whose shared email passes the code's email check, so
the survivor reaches the clean output with its multi-plan flag. -/
def rowsC9 : List Row :=
  [⟨"Maria", "a@.", "2023-01-01"⟩, ⟨"Maria", "a@.", "2023-06-15"⟩]

/-- A row named `"Test User"` with otherwise plausible fields. -/
def rowsTU : List Row := [⟨"Test User", "t@x.com", "2023-01-01"⟩]

/-- A row whose `signup_date` does not parse. -/
def rowsC8 : List Row := [⟨"Maria", "a@.", "not-a-date"⟩]

/-! ### General list helpers -/

theorem contains_eq_decide_mem (l : List Nat) (a : Nat) :
    l.contains a = decide (a ∈ l) := by
  simp [List.contains]

theorem getD_map_of_lt {α β : Type} (f : α → β) (l : List α) {i : Nat}
    (h : i < l.length) (d : β) (d0 : α) :
    (l.map f).getD i d = f (l.getD i d0) := by
  rw [List.getD_eq_getElem _ _ (by simpa using h), List.getD_eq_getElem _ _ h]
  simp

theorem getD_const_false {α : Type} (l : List α) (i : Nat) :
    (l.map (fun _ => false)).getD i false = false := by
  induction l generalizing i with
  | nil => rfl
  | cons a t ih =>
    cases i with
    | zero => rfl
    | succ n => exact ih n

theorem map_getD_range {α : Type} (l : List α) (d : α) :
    (List.range l.length).map (fun k => l.getD k d) = l := by
  apply List.ext_getElem
  · simp
  · intro i h1 h2
    simp only [List.getElem_map, List.getElem_range]
    rw [List.getD_eq_getElem l d h2]

/-! ### Pass (a) characterization -/

theorem length_stdOf (rows : List Row) : (stdOf rows).length = rows.length := by
  simp [stdOf]

theorem stdOf_getD {rows : List Row} {i : Nat} (h : i < rows.length) :
    (stdOf rows).getD i none = pdParseDate ((rows.getD i default).signup_date) := by
  rw [stdOf, getD_map_of_lt _ _ h _ default]

theorem mem_qaOf {rows : List Row} {i : Nat} :
    i ∈ qaOf rows ↔ i < rows.length ∧ ((stdOf rows).getD i none).isNone = true := by
  simp [qaOf, List.mem_filter, List.mem_range]

theorem nodup_qaOf (rows : List Row) : (qaOf rows).Nodup :=
  (List.nodup_range _).filter _

theorem qaOf_lt {rows : List Row} {i : Nat} (h : i ∈ qaOf rows) :
    i < rows.length := (mem_qaOf.1 h).1

/-! ### Lemmas about `quarantineOthers` -/

theorem quarantineOthers_cons (recent : Option Nat) (i : Nat) (t q : List Nat) :
    quarantineOthers recent (i :: t) q =
      quarantineOthers recent t
        (if recent ≠ some i ∧ i ∉ q then q ++ [i] else q) := by
  rw [quarantineOthers]
  congr 1
  by_cases hr : recent = some i
  · simp [hr]
  · by_cases hq : i ∈ q
    · simp [contains_eq_decide_mem, hq, hr]
    · simp [contains_eq_decide_mem, hq, hr, bne_iff_ne]

theorem mem_quarantineOthers (recent : Option Nat) :
    ∀ (t q : List Nat) (j : Nat),
      j ∈ quarantineOthers recent t q ↔ j ∈ q ∨ (j ∈ t ∧ recent ≠ some j) := by
  intro t
  induction t with
  | nil => intro q j; simp [quarantineOthers]
  | cons i t ih =>
    intro q j
    rw [quarantineOthers_cons, ih]
    by_cases hj : j = i
    · subst hj
      by_cases hr : recent = some j
      · simp [hr]
      · by_cases hq : j ∈ q
        · simp [hq]
        · simp [hr, hq]
    · constructor
      · rintro (h | ⟨h1, h2⟩)
        · split at h
          · rcases List.mem_append.1 h with h | h
            · exact Or.inl h
            · exact absurd (List.mem_singleton.1 h) hj
          · exact Or.inl h
        · exact Or.inr ⟨List.mem_cons_of_mem _ h1, h2⟩
      · rintro (h | ⟨h1, h2⟩)
        · refine Or.inl ?_
          split
          · exact List.mem_append_left _ h
          · exact h
        · rcases List.mem_cons.1 h1 with h1 | h1
          · exact absurd h1 hj
          · exact Or.inr ⟨h1, h2⟩

theorem nodup_quarantineOthers (recent : Option Nat) :
    ∀ (t q : List Nat), q.Nodup → (quarantineOthers recent t q).Nodup := by
  intro t
  induction t with
  | nil => intro q h; exact h
  | cons i t ih =>
    intro q h
    rw [quarantineOthers_cons]
    apply ih
    split
    · rename_i hcond
      exact (List.nodup_append.2 ⟨h, List.nodup_singleton i,
        fun a ha hai => hcond.2 (List.mem_singleton.1 hai ▸ ha)⟩)
    · exact h

/-! ### Lemmas about the validation loop -/

theorem validateStep_eq (rows : List Row) (std : List (Option Date))
    (q : List Nat) (i : Nat) :
    validateStep rows std q i =
      if i ∉ q ∧ failsValidation (rows.getD i default) (std.getD i none) = true
      then q ++ [i] else q := by
  rw [validateStep]
  by_cases hq : i ∈ q
  · simp [contains_eq_decide_mem, hq]
  · by_cases hf : failsValidation (rows.getD i default) (std.getD i none) = true
    · simp [contains_eq_decide_mem, hq, hf]
    · simp [contains_eq_decide_mem, hq, hf]

theorem mem_validateList (rows : List Row) (std : List (Option Date)) :
    ∀ (t q : List Nat) (j : Nat), t.Nodup →
      (j ∈ validateList rows std t q ↔
        j ∈ q ∨ (j ∈ t ∧
          failsValidation (rows.getD j default) (std.getD j none) = true)) := by
  intro t
  induction t with
  | nil => intro q j _; simp [validateList]
  | cons i t ih =>
    intro q j hnd
    have hit : i ∉ t := (List.nodup_cons.1 hnd).1
    rw [validateList, ih _ _ (List.nodup_cons.1 hnd).2, validateStep_eq]
    by_cases hj : j = i
    · subst hj
      by_cases hq : j ∈ q
      · simp [hq, hit]
      · by_cases hf :
          failsValidation (rows.getD j default) (std.getD j none) = true
        · simp only [List.getD_eq_getElem?_getD] at hf
          simp [hq, hf, hit]
        · simp only [List.getD_eq_getElem?_getD] at hf
          simp [hq, hf, hit]
    · constructor
      · rintro (h | ⟨h1, h2⟩)
        · split at h
          · rcases List.mem_append.1 h with h | h
            · exact Or.inl h
            · exact absurd (List.mem_singleton.1 h) hj
          · exact Or.inl h
        · exact Or.inr ⟨List.mem_cons_of_mem _ h1, h2⟩
      · rintro (h | ⟨h1, h2⟩)
        · refine Or.inl ?_
          split
          · exact List.mem_append_left _ h
          · exact h
        · rcases List.mem_cons.1 h1 with h1 | h1
          · exact absurd h1 hj
          · exact Or.inr ⟨h1, h2⟩

theorem subset_validateList (rows : List Row) (std : List (Option Date)) :
    ∀ (t q : List Nat) (j : Nat), j ∈ q → j ∈ validateList rows std t q := by
  intro t
  induction t with
  | nil => intro q j h; exact h
  | cons i t ih =>
    intro q j h
    rw [validateList, validateStep_eq]
    apply ih
    split
    · exact List.mem_append_left _ h
    · exact h

theorem nodup_validateList (rows : List Row) (std : List (Option Date)) :
    ∀ (t q : List Nat), q.Nodup → (validateList rows std t q).Nodup := by
  intro t
  induction t with
  | nil => intro q h; exact h
  | cons i t ih =>
    intro q h
    rw [validateList, validateStep_eq]
    apply ih
    split
    · rename_i hcond
      exact (List.nodup_append.2 ⟨h, List.nodup_singleton i,
        fun a ha hai => hcond.1 (List.mem_singleton.1 hai ▸ ha)⟩)
    · exact h

theorem validateList_of_lt (rows : List Row) (std : List (Option Date)) :
    ∀ (t q : List Nat) (n : Nat), (∀ x ∈ t, x < n) → (∀ x ∈ q, x < n) →
      ∀ x ∈ validateList rows std t q, x < n := by
  intro t
  induction t with
  | nil => intro q n _ hq x hx; exact hq x hx
  | cons i t ih =>
    intro q n ht hq x hx
    rw [validateList, validateStep_eq] at hx
    refine ih _ n (fun y hy => ht y (List.mem_cons_of_mem _ hy)) ?_ x hx
    intro y hy
    split at hy
    · rcases List.mem_append.1 hy with hy | hy
      · exact hq y hy
      · exact List.mem_singleton.1 hy ▸ ht i (List.mem_cons_self _ _)
    · exact hq y hy

/-! ### Lemmas about survivor selection -/

theorem selSpec_extend_inelig {std : List (Option Date)} {q : List Nat}
    {pre : List Nat} {acc : Option (Nat × Date)} {i : Nat}
    (h : SelSpec std q pre acc) (hi : ∀ d, ¬ Elig std q i d) :
    SelSpec std q (pre ++ [i]) acc := by
  match acc with
  | none =>
    intro j hj d
    rcases List.mem_append.1 hj with hj | hj
    · exact h j hj d
    · exact List.mem_singleton.1 hj ▸ hi d
  | some (b, bd) =>
    obtain ⟨hb, l1, l2, hpre, h1, h2⟩ := h
    refine ⟨hb, l1, l2 ++ [i], by rw [hpre]; simp, h1, ?_⟩
    intro j hj dj hdj
    rcases List.mem_append.1 hj with hj | hj
    · exact h2 j hj dj hdj
    · exact absurd hdj (List.mem_singleton.1 hj ▸ hi dj)

theorem selSpec_extend_le {std : List (Option Date)} {q : List Nat}
    {pre : List Nat} {b : Nat} {bd : Date} {i : Nat} {d : Date}
    (h : SelSpec std q pre (some (b, bd))) (hi : Elig std q i d)
    (hle : dateVal d ≤ dateVal bd) :
    SelSpec std q (pre ++ [i]) (some (b, bd)) := by
  obtain ⟨hb, l1, l2, hpre, h1, h2⟩ := h
  refine ⟨hb, l1, l2 ++ [i], by rw [hpre]; simp, h1, ?_⟩
  intro j hj dj hdj
  rcases List.mem_append.1 hj with hj | hj
  · exact h2 j hj dj hdj
  · have hji : j = i := List.mem_singleton.1 hj
    have : dj = d := by
      have := hdj.2
      rw [hji] at this
      rw [hi.2] at this
      exact (Option.some_injective _ this).symm
    rw [this]
    exact hle

theorem selSpec_extend_new {std : List (Option Date)} {q : List Nat}
    {pre : List Nat} {i : Nat} {d : Date}
    (h : SelSpec std q pre none) (hi : Elig std q i d) :
    SelSpec std q (pre ++ [i]) (some (i, d)) := by
  refine ⟨hi, pre, [], rfl, ?_, ?_⟩
  · intro j hj dj hdj
    exact absurd hdj (h j hj dj)
  · intro j hj
    simp at hj

theorem selSpec_extend_gt {std : List (Option Date)} {q : List Nat}
    {pre : List Nat} {b : Nat} {bd : Date} {i : Nat} {d : Date}
    (h : SelSpec std q pre (some (b, bd))) (hi : Elig std q i d)
    (hgt : dateVal bd < dateVal d) :
    SelSpec std q (pre ++ [i]) (some (i, d)) := by
  obtain ⟨hb, l1, l2, hpre, h1, h2⟩ := h
  refine ⟨hi, pre, [], rfl, ?_, ?_⟩
  · intro j hj dj hdj
    rw [hpre] at hj
    rcases List.mem_append.1 hj with hj | hj
    · exact lt_trans (h1 j hj dj hdj) hgt
    · rcases List.mem_cons.1 hj with hj | hj
      · have : dj = bd := by
          have := hdj.2
          rw [hj] at this
          rw [hb.2] at this
          exact (Option.some_injective _ this).symm
        rw [this]
        exact hgt
      · exact lt_of_le_of_lt (h2 j hj dj hdj) hgt
  · intro j hj
    simp at hj

theorem selStep_spec {std : List (Option Date)} {q : List Nat}
    {pre : List Nat} {acc : Option (Nat × Date)} (i : Nat)
    (h : SelSpec std q pre acc) :
    SelSpec std q (pre ++ [i]) (selStep std q acc i) := by
  rw [selStep]
  by_cases hq : i ∈ q
  · rw [if_pos (by simp [contains_eq_decide_mem, hq])]
    exact selSpec_extend_inelig h (fun d hd => hd.1 hq)
  · rw [if_neg (by simp [contains_eq_decide_mem, hq])]
    cases hstd : std.getD i none with
    | none =>
      exact selSpec_extend_inelig h
        (fun d hd => by rw [hd.2] at hstd; exact Option.noConfusion hstd)
    | some d =>
      have hi : Elig std q i d := ⟨hq, hstd⟩
      cases acc with
      | none => exact selSpec_extend_new h hi
      | some p =>
        obtain ⟨b, bd⟩ := p
        dsimp only
        by_cases hgt : dateVal bd < dateVal d
        · rw [if_pos hgt]
          exact selSpec_extend_gt h hi hgt
        · rw [if_neg hgt]
          exact selSpec_extend_le h hi (Nat.le_of_not_lt hgt)

theorem selectAux_spec (std : List (Option Date)) (q : List Nat) :
    ∀ (t : List Nat) (acc : Option (Nat × Date)) (pre : List Nat),
      SelSpec std q pre acc →
      SelSpec std q (pre ++ t) (selectAux std q t acc) := by
  intro t
  induction t with
  | nil =>
    intro acc pre h
    rw [selectAux]
    simpa using h
  | cons i t ih =>
    intro acc pre h
    rw [selectAux]
    have := ih _ (pre ++ [i]) (selStep_spec i h)
    simpa [List.append_assoc] using this

theorem selectSurvivor_selSpec (std : List (Option Date)) (q idxs : List Nat) :
    SelSpec std q idxs (selectAux std q idxs none) := by
  have h0 : SelSpec std q [] none := by
    intro j hj
    simp at hj
  simpa using selectAux_spec std q idxs none [] h0

theorem selectSurvivor_some {std : List (Option Date)} {q idxs : List Nat}
    {i : Nat} (h : selectSurvivor std q idxs = some i) :
    ∃ d, std.getD i none = some d ∧ i ∉ q ∧ i ∈ idxs ∧
      (∀ j dj, j ∈ idxs → j ∉ q → std.getD j none = some dj →
        dateVal dj ≤ dateVal d) ∧
      ∃ l1 l2, idxs = l1 ++ i :: l2 ∧
        (∀ j dj, j ∈ l1 → j ∉ q → std.getD j none = some dj →
          dateVal dj < dateVal d) := by
  have hspec := selectSurvivor_selSpec std q idxs
  rw [selectSurvivor] at h
  cases hsel : selectAux std q idxs none with
  | none => rw [hsel] at h; exact Option.noConfusion h
  | some p =>
    rw [hsel] at h hspec
    obtain ⟨i0, d⟩ := p
    have hi0 : i0 = i := by
      simpa using h
    subst hi0
    obtain ⟨helig, l1, l2, hpre, h1, h2⟩ := hspec
    refine ⟨d, helig.2, helig.1, by rw [hpre]; simp, ?_, l1, l2, hpre, ?_⟩
    · intro j dj hj hjq hjd
      rw [hpre] at hj
      rcases List.mem_append.1 hj with hj | hj
      · exact le_of_lt (h1 j hj dj ⟨hjq, hjd⟩)
      · rcases List.mem_cons.1 hj with hj | hj
        · subst hj
          rw [helig.2] at hjd
          rw [Option.some_injective _ hjd]
        · exact h2 j hj dj ⟨hjq, hjd⟩
    · intro j dj hj hjq hjd
      exact h1 j hj dj ⟨hjq, hjd⟩

theorem selectSurvivor_none {std : List (Option Date)} {q idxs : List Nat}
    (h : selectSurvivor std q idxs = none) :
    ∀ j ∈ idxs, j ∉ q → (std.getD j none) = none := by
  have hspec := selectSurvivor_selSpec std q idxs
  rw [selectSurvivor] at h
  cases hsel : selectAux std q idxs none with
  | some p => rw [hsel] at h; simp at h
  | none =>
    rw [hsel] at hspec
    intro j hj hjq
    cases hstd : std.getD j none with
    | none => rfl
    | some d => exact absurd ⟨hjq, hstd⟩ (hspec j hj d)

theorem selectSurvivor_all_quarantined {std : List (Option Date)}
    {q idxs : List Nat} (h : ∀ j ∈ idxs, j ∈ q) :
    selectSurvivor std q idxs = none := by
  cases hs : selectSurvivor std q idxs with
  | none => rfl
  | some i =>
    obtain ⟨d, _, hiq, hidx, _⟩ := selectSurvivor_some hs
    exact absurd (h i hidx) hiq

theorem selectAux_congr (std : List (Option Date)) (q q2 : List Nat) :
    ∀ (t : List Nat) (acc : Option (Nat × Date)),
      (∀ j ∈ t, (j ∈ q ↔ j ∈ q2)) →
      selectAux std q t acc = selectAux std q2 t acc := by
  intro t
  induction t with
  | nil => intro acc _; rw [selectAux, selectAux]
  | cons i t ih =>
    intro acc hag
    rw [selectAux, selectAux]
    have hc : q.contains i = q2.contains i := by
      rw [contains_eq_decide_mem, contains_eq_decide_mem]
      exact decide_eq_decide.mpr (hag i (List.mem_cons_self _ _))
    simp only [selStep, hc]
    exact ih _ (fun j hj => hag j (List.mem_cons_of_mem _ hj))

theorem selectSurvivor_congr (std : List (Option Date)) (q q2 idxs : List Nat)
    (hag : ∀ j ∈ idxs, (j ∈ q ↔ j ∈ q2)) :
    selectSurvivor std q idxs = selectSurvivor std q2 idxs := by
  rw [selectSurvivor, selectSurvivor, selectAux_congr std q q2 idxs none hag]

/-! ### Lemmas about groups and keys -/

theorem mem_groupIdxs {rows : List Row} {e : String} {j : Nat} :
    j ∈ groupIdxs rows e ↔
      j < rows.length ∧ (rows.getD j default).email = e := by
  simp [groupIdxs, List.mem_filter, List.mem_range]

theorem nodup_groupIdxs (rows : List Row) (e : String) :
    (groupIdxs rows e).Nodup :=
  (List.nodup_range _).filter _

theorem mem_dedupKeys :
    ∀ (l seen : List String) (e : String),
      e ∈ dedupKeys l seen ↔ e ∈ l ∧ e ∉ seen := by
  intro l
  induction l with
  | nil => intro seen e; simp [dedupKeys]
  | cons a t ih =>
    intro seen e
    rw [dedupKeys]
    by_cases ha : a ∈ seen
    · rw [if_pos (by simp [List.contains, ha])]
      rw [ih]
      constructor
      · rintro ⟨h1, h2⟩
        exact ⟨List.mem_cons_of_mem _ h1, h2⟩
      · rintro ⟨h1, h2⟩
        rcases List.mem_cons.1 h1 with h1 | h1
        · exact absurd (h1 ▸ ha) h2
        · exact ⟨h1, h2⟩
    · rw [if_neg (by simp [List.contains, ha])]
      by_cases he : e = a
      · subst he
        simp [ha]
      · simp only [List.mem_cons]
        rw [ih]
        simp only [List.mem_cons]
        constructor
        · rintro (h | ⟨h1, h2⟩)
          · exact absurd h he
          · exact ⟨Or.inr h1, fun hc => h2 (Or.inr hc)⟩
        · rintro ⟨h1 | h1, h2⟩
          · exact absurd h1 he
          · exact Or.inr ⟨h1, fun hc => h2 (by
              rcases hc with hc | hc
              · exact absurd hc he
              · exact hc)⟩

theorem nodup_dedupKeys :
    ∀ (l seen : List String), (dedupKeys l seen).Nodup := by
  intro l
  induction l with
  | nil => intro seen; exact List.nodup_nil
  | cons a t ih =>
    intro seen
    rw [dedupKeys]
    split
    · exact ih seen
    · refine List.nodup_cons.2 ⟨?_, ih (a :: seen)⟩
      intro hmem
      exact ((mem_dedupKeys t (a :: seen) a).1 hmem).2 (List.mem_cons_self _ _)

theorem mem_emailKeys {rows : List Row} {e : String} :
    e ∈ emailKeys rows ↔ e ∈ rows.map (fun r => r.email) := by
  rw [emailKeys, mem_dedupKeys]
  simp

theorem nodup_emailKeys (rows : List Row) : (emailKeys rows).Nodup :=
  nodup_dedupKeys _ _

theorem email_mem_emailKeys {rows : List Row} {i : Nat}
    (h : i < rows.length) :
    (rows.getD i default).email ∈ emailKeys rows := by
  rw [mem_emailKeys, List.mem_map]
  exact ⟨rows.getD i default, by rw [List.getD_eq_getElem _ _ h]; exact List.getElem_mem h, rfl⟩

/-! ### Lemmas about `processGroup` and the group loop -/

theorem processGroup_small {std : List (Option Date)} {idxs : List Nat}
    (st : List Bool × List Nat) (h : ¬ 1 < idxs.length) :
    processGroup std idxs st = st := by
  rw [processGroup, if_neg h]

theorem processGroup_big {std : List (Option Date)} {idxs : List Nat}
    (m : List Bool) (q : List Nat) (h : 1 < idxs.length) :
    processGroup std idxs (m, q) =
      (match selectSurvivor std q idxs with
       | some i => m.set i true
       | none => m,
       quarantineOthers (selectSurvivor std q idxs) idxs q) := by
  rw [processGroup, if_pos h]

theorem resolveList_id_of_small (rows : List Row) (std : List (Option Date)) :
    ∀ (K : List String) (st : List Bool × List Nat),
      (∀ e ∈ K, (groupIdxs rows e).length ≤ 1) →
      resolveList rows std K st = st := by
  intro K
  induction K with
  | nil => intro st _; rw [resolveList]
  | cons e K ih =>
    intro st hsmall
    rw [resolveList,
      processGroup_small st (by
        have := hsmall e (List.mem_cons_self _ _)
        omega)]
    exact ih st (fun x hx => hsmall x (List.mem_cons_of_mem _ hx))

theorem subset_resolveListQ (rows : List Row) (std : List (Option Date)) :
    ∀ (K : List String) (st : List Bool × List Nat) (j : Nat),
      j ∈ st.2 → j ∈ (resolveList rows std K st).2 := by
  intro K
  induction K with
  | nil => intro st j h; rw [resolveList]; exact h
  | cons e K ih =>
    intro st j h
    rw [resolveList]
    apply ih
    rw [processGroup]
    split
    · exact (mem_quarantineOthers _ _ _ _).2 (Or.inl h)
    · exact h

theorem resolveListQ_src (rows : List Row) (std : List (Option Date)) :
    ∀ (K : List String) (st : List Bool × List Nat) (j : Nat),
      j ∈ (resolveList rows std K st).2 →
      j ∈ st.2 ∨ ∃ e ∈ K, j ∈ groupIdxs rows e := by
  intro K
  induction K with
  | nil => intro st j h; rw [resolveList] at h; exact Or.inl h
  | cons e K ih =>
    intro st j h
    rw [resolveList] at h
    rcases ih _ j h with h | ⟨x, hx, hgx⟩
    · rw [processGroup] at h
      split at h
      · rcases (mem_quarantineOthers _ _ _ _).1 h with h | ⟨h1, _⟩
        · exact Or.inl h
        · exact Or.inr ⟨e, List.mem_cons_self _ _, h1⟩
      · exact Or.inl h
    · exact Or.inr ⟨x, List.mem_cons_of_mem _ hx, hgx⟩

theorem nodup_resolveListQ (rows : List Row) (std : List (Option Date)) :
    ∀ (K : List String) (st : List Bool × List Nat),
      st.2.Nodup → (resolveList rows std K st).2.Nodup := by
  intro K
  induction K with
  | nil => intro st h; rw [resolveList]; exact h
  | cons e K ih =>
    intro st h
    rw [resolveList]
    apply ih
    rw [processGroup]
    split
    · exact nodup_quarantineOthers _ _ _ h
    · exact h

theorem length_resolveListM (rows : List Row) (std : List (Option Date)) :
    ∀ (K : List String) (st : List Bool × List Nat),
      (resolveList rows std K st).1.length = st.1.length := by
  intro K
  induction K with
  | nil => intro st; rw [resolveList]
  | cons e K ih =>
    intro st
    rw [resolveList, ih]
    rw [processGroup]
    split
    · split
      · exact List.length_set _ _ _
      · rfl
    · rfl

theorem getD_set_self_of_lt {α : Type} {l : List α} {i : Nat}
    (h : i < l.length) (b d : α) : (l.set i b).getD i d = b := by
  rw [List.getD_eq_getElem?_getD, List.getElem?_set_self h]
  rfl

theorem getD_set_ne {α : Type} {l : List α} {i j : Nat} (h : i ≠ j)
    (b d : α) : (l.set i b).getD j d = l.getD j d := by
  rw [List.getD_eq_getElem?_getD, List.getElem?_set_ne h,
    ← List.getD_eq_getElem?_getD]

/-- The workhorse invariant of the duplicate-resolution loop: as long as the
still-unprocessed keys' groups agree between the running quarantine list and
the pass-(a) list `qa` (true initially, preserved because the groups are
pairwise disjoint), the final flags and quarantine entries are exactly the
per-group survivor selections measured against `qa`. -/
theorem resolveList_invariant (rows : List Row) (std : List (Option Date))
    (qa : List Nat) :
    ∀ (K : List String) (m : List Bool) (q : List Nat),
      K.Nodup →
      (∀ e ∈ K, ∀ j ∈ groupIdxs rows e, (j ∈ q ↔ j ∈ qa)) →
      m.length = rows.length →
      ((resolveList rows std K (m, q)).1.length = rows.length ∧
       (∀ i, ((resolveList rows std K (m, q)).1.getD i false = true ↔
          (m.getD i false = true ∨
            ∃ e ∈ K, 1 < (groupIdxs rows e).length ∧
              selectSurvivor std qa (groupIdxs rows e) = some i))) ∧
       (∀ j, (j ∈ (resolveList rows std K (m, q)).2 ↔
          (j ∈ q ∨
            ∃ e ∈ K, 1 < (groupIdxs rows e).length ∧ j ∈ groupIdxs rows e ∧
              j ∉ qa ∧
              selectSurvivor std qa (groupIdxs rows e) ≠ some j)))) := by
  intro K
  induction K with
  | nil =>
    intro m q _ _ hm
    rw [resolveList]
    exact ⟨hm, fun i => by simp, fun j => by simp⟩
  | cons e K ih =>
    intro m q hnd hag hm
    have hndK : K.Nodup := (List.nodup_cons.1 hnd).2
    have heK : e ∉ K := (List.nodup_cons.1 hnd).1
    have hagE : ∀ j ∈ groupIdxs rows e, (j ∈ q ↔ j ∈ qa) :=
      hag e (List.mem_cons_self _ _)
    rw [resolveList]
    by_cases hlen : 1 < (groupIdxs rows e).length
    · have hsel : selectSurvivor std q (groupIdxs rows e) =
          selectSurvivor std qa (groupIdxs rows e) :=
        selectSurvivor_congr std q qa _ hagE
      rw [processGroup_big m q hlen, hsel]
      cases hs : selectSurvivor std qa (groupIdxs rows e) with
      | some i0 =>
        dsimp only
        obtain ⟨d0, hstd0, hi0qa, hi0g, _, _⟩ := selectSurvivor_some hs
        have hi0n : i0 < rows.length := (mem_groupIdxs.1 hi0g).1
        have hi0m : i0 < m.length := hm ▸ hi0n
        have hagK : ∀ x ∈ K, ∀ j ∈ groupIdxs rows x,
            (j ∈ quarantineOthers (some i0) (groupIdxs rows e) q ↔ j ∈ qa) := by
          intro x hx j hj
          have hxe : x ≠ e := fun hc => heK (hc ▸ hx)
          have hjge : j ∉ groupIdxs rows e := by
            intro hc
            exact hxe ((mem_groupIdxs.1 hj).2 ▸ (mem_groupIdxs.1 hc).2)
          rw [mem_quarantineOthers]
          constructor
          · rintro (h | ⟨h1, _⟩)
            · exact (hag x (List.mem_cons_of_mem _ hx) j hj).1 h
            · exact absurd h1 hjge
          · intro h
            exact Or.inl ((hag x (List.mem_cons_of_mem _ hx) j hj).2 h)
        obtain ⟨c1, c2, c3⟩ :=
          ih (m.set i0 true) (quarantineOthers (some i0) (groupIdxs rows e) q)
            hndK hagK (by rw [List.length_set]; exact hm)
        refine ⟨c1, ?_, ?_⟩
        · intro i
          rw [c2 i]
          by_cases hii : i = i0
          · subst hii
            rw [getD_set_self_of_lt hi0m]
            constructor
            · intro _
              exact Or.inr ⟨e, List.mem_cons_self _ _, hlen, hs⟩
            · intro _
              exact Or.inl rfl
          · rw [getD_set_ne (fun hc => hii hc.symm)]
            constructor
            · rintro (h | ⟨x, hx, hc⟩)
              · exact Or.inl h
              · exact Or.inr ⟨x, List.mem_cons_of_mem _ hx, hc⟩
            · rintro (h | ⟨x, hx, h1, h2⟩)
              · exact Or.inl h
              · rcases List.mem_cons.1 hx with hx | hx
                · subst hx
                  rw [hs] at h2
                  exact absurd (Option.some_injective _ h2) (fun hc => hii hc.symm)
                · exact Or.inr ⟨x, hx, h1, h2⟩
        · intro j
          rw [c3 j, mem_quarantineOthers]
          constructor
          · rintro ((h | ⟨h1, h2⟩) | ⟨x, hx, hc⟩)
            · exact Or.inl h
            · by_cases hjqa : j ∈ qa
              · exact Or.inl ((hagE j h1).2 hjqa)
              · exact Or.inr ⟨e, List.mem_cons_self _ _, hlen, h1, hjqa,
                  by rw [hs]; exact h2⟩
            · exact Or.inr ⟨x, List.mem_cons_of_mem _ hx, hc⟩
          · rintro (h | ⟨x, hx, h1, h2, h3, h4⟩)
            · exact Or.inl (Or.inl h)
            · rcases List.mem_cons.1 hx with hx | hx
              · subst hx
                rw [hs] at h4
                exact Or.inl (Or.inr ⟨h2, h4⟩)
              · exact Or.inr ⟨x, hx, h1, h2, h3, h4⟩
      | none =>
        dsimp only
        have hagK : ∀ x ∈ K, ∀ j ∈ groupIdxs rows x,
            (j ∈ quarantineOthers none (groupIdxs rows e) q ↔ j ∈ qa) := by
          intro x hx j hj
          have hxe : x ≠ e := fun hc => heK (hc ▸ hx)
          have hjge : j ∉ groupIdxs rows e := by
            intro hc
            exact hxe ((mem_groupIdxs.1 hj).2 ▸ (mem_groupIdxs.1 hc).2)
          rw [mem_quarantineOthers]
          constructor
          · rintro (h | ⟨h1, _⟩)
            · exact (hag x (List.mem_cons_of_mem _ hx) j hj).1 h
            · exact absurd h1 hjge
          · intro h
            exact Or.inl ((hag x (List.mem_cons_of_mem _ hx) j hj).2 h)
        obtain ⟨c1, c2, c3⟩ :=
          ih m (quarantineOthers none (groupIdxs rows e) q) hndK hagK hm
        refine ⟨c1, ?_, ?_⟩
        · intro i
          rw [c2 i]
          constructor
          · rintro (h | ⟨x, hx, hc⟩)
            · exact Or.inl h
            · exact Or.inr ⟨x, List.mem_cons_of_mem _ hx, hc⟩
          · rintro (h | ⟨x, hx, h1, h2⟩)
            · exact Or.inl h
            · rcases List.mem_cons.1 hx with hx | hx
              · subst hx
                rw [hs] at h2
                exact Option.noConfusion h2
              · exact Or.inr ⟨x, hx, h1, h2⟩
        · intro j
          rw [c3 j, mem_quarantineOthers]
          constructor
          · rintro ((h | ⟨h1, _⟩) | ⟨x, hx, hc⟩)
            · exact Or.inl h
            · by_cases hjqa : j ∈ qa
              · exact Or.inl ((hagE j h1).2 hjqa)
              · exact Or.inr ⟨e, List.mem_cons_self _ _, hlen, h1, hjqa,
                  by rw [hs]; exact fun hc => Option.noConfusion hc⟩
            · exact Or.inr ⟨x, List.mem_cons_of_mem _ hx, hc⟩
          · rintro (h | ⟨x, hx, h1, h2, h3, h4⟩)
            · exact Or.inl (Or.inl h)
            · rcases List.mem_cons.1 hx with hx | hx
              · subst hx
                exact Or.inl (Or.inr ⟨h2, fun hc => Option.noConfusion hc⟩)
              · exact Or.inr ⟨x, hx, h1, h2, h3, h4⟩
    · rw [processGroup_small _ hlen]
      obtain ⟨c1, c2, c3⟩ :=
        ih m q hndK (fun x hx => hag x (List.mem_cons_of_mem _ hx)) hm
      refine ⟨c1, ?_, ?_⟩
      · intro i
        rw [c2 i]
        constructor
        · rintro (h | ⟨x, hx, hc⟩)
          · exact Or.inl h
          · exact Or.inr ⟨x, List.mem_cons_of_mem _ hx, hc⟩
        · rintro (h | ⟨x, hx, h1, h2⟩)
          · exact Or.inl h
          · rcases List.mem_cons.1 hx with hx | hx
            · subst hx
              exact absurd h1 hlen
            · exact Or.inr ⟨x, hx, h1, h2⟩
      · intro j
        rw [c3 j]
        constructor
        · rintro (h | ⟨x, hx, hc⟩)
          · exact Or.inl h
          · exact Or.inr ⟨x, List.mem_cons_of_mem _ hx, hc⟩
        · rintro (h | ⟨x, hx, h1, h2⟩)
          · exact Or.inl h
          · rcases List.mem_cons.1 hx with hx | hx
            · subst hx
              exact absurd h1 hlen
            · exact Or.inr ⟨x, hx, h1, h2⟩

/-! ### Characterization of the pipeline state -/

theorem multiQb_spec (rows : List Row) :
    ((resolveList rows (stdOf rows) (emailKeys rows)
        (rows.map (fun _ => false), qaOf rows)).1.length = rows.length ∧
     (∀ i, ((resolveList rows (stdOf rows) (emailKeys rows)
        (rows.map (fun _ => false), qaOf rows)).1.getD i false = true ↔
        ((rows.map (fun _ => false)).getD i false = true ∨
          ∃ e ∈ emailKeys rows, 1 < (groupIdxs rows e).length ∧
            selectSurvivor (stdOf rows) (qaOf rows) (groupIdxs rows e) =
              some i))) ∧
     (∀ j, (j ∈ (resolveList rows (stdOf rows) (emailKeys rows)
        (rows.map (fun _ => false), qaOf rows)).2 ↔
        (j ∈ qaOf rows ∨
          ∃ e ∈ emailKeys rows, 1 < (groupIdxs rows e).length ∧
            j ∈ groupIdxs rows e ∧ j ∉ qaOf rows ∧
            selectSurvivor (stdOf rows) (qaOf rows) (groupIdxs rows e) ≠
              some j)))) :=
  resolveList_invariant rows (stdOf rows) (qaOf rows) (emailKeys rows)
    (rows.map (fun _ => false)) (qaOf rows) (nodup_emailKeys rows)
    (fun _ _ _ _ => Iff.rfl) (by simp)

theorem length_multiOf (rows : List Row) :
    (multiOf rows).length = rows.length := by
  rw [multiOf, multiQb]
  exact (multiQb_spec rows).1

theorem multiOf_iff {rows : List Row} {i : Nat} :
    (multiOf rows).getD i false = true ↔
      ∃ e ∈ emailKeys rows, 1 < (groupIdxs rows e).length ∧
        selectSurvivor (stdOf rows) (qaOf rows) (groupIdxs rows e) = some i := by
  have h := (multiQb_spec rows).2.1 i
  rw [getD_const_false] at h
  rw [multiOf, multiQb, h]
  simp

theorem mem_qbOf {rows : List Row} {j : Nat} :
    j ∈ qbOf rows ↔
      j ∈ qaOf rows ∨
        ∃ e ∈ emailKeys rows, 1 < (groupIdxs rows e).length ∧
          j ∈ groupIdxs rows e ∧ j ∉ qaOf rows ∧
          selectSurvivor (stdOf rows) (qaOf rows) (groupIdxs rows e) ≠
            some j := by
  rw [qbOf, multiQb]
  exact (multiQb_spec rows).2.2 j

theorem subset_qa_qb {rows : List Row} {j : Nat} (h : j ∈ qaOf rows) :
    j ∈ qbOf rows := by
  rw [qbOf, multiQb]
  exact subset_resolveListQ rows (stdOf rows) (emailKeys rows) _ j h

theorem nodup_qbOf (rows : List Row) : (qbOf rows).Nodup := by
  rw [qbOf, multiQb]
  exact nodup_resolveListQ rows (stdOf rows) (emailKeys rows) _ (nodup_qaOf rows)

theorem qbOf_lt {rows : List Row} {j : Nat} (h : j ∈ qbOf rows) :
    j < rows.length := by
  rw [qbOf, multiQb] at h
  rcases resolveListQ_src rows (stdOf rows) (emailKeys rows) _ j h with
    h | ⟨e, _, hg⟩
  · exact qaOf_lt h
  · exact (mem_groupIdxs.1 hg).1

theorem mem_qcOf {rows : List Row} {j : Nat} :
    j ∈ qcOf rows ↔
      j ∈ qbOf rows ∨
        (j < rows.length ∧
          failsValidation (rows.getD j default)
            ((stdOf rows).getD j none) = true) := by
  rw [qcOf, mem_validateList _ _ _ _ _ (List.nodup_range _)]
  simp [List.mem_range]

theorem subset_qb_qc {rows : List Row} {j : Nat} (h : j ∈ qbOf rows) :
    j ∈ qcOf rows := by
  rw [qcOf]
  exact subset_validateList _ _ _ _ _ h

theorem nodup_qcOf (rows : List Row) : (qcOf rows).Nodup := by
  rw [qcOf]
  exact nodup_validateList _ _ _ _ (nodup_qbOf rows)

theorem qcOf_lt {rows : List Row} {j : Nat} (h : j ∈ qcOf rows) :
    j < rows.length := by
  rw [qcOf] at h
  exact validateList_of_lt _ _ _ _ rows.length
    (fun x hx => List.mem_range.1 hx) (fun x hx => qbOf_lt hx) j h

theorem pipeline_rowsEq (rows : List Row) : (pipeline rows).rows = rows := rfl

theorem pipeline_stdEq (rows : List Row) : (pipeline rows).std = stdOf rows := rfl

theorem pipeline_multiEq (rows : List Row) :
    (pipeline rows).multi = multiOf rows := rfl

theorem pipeline_qEq (rows : List Row) : (pipeline rows).q = qcOf rows := rfl

theorem std_isSome_of_not_qc {rows : List Row} {i : Nat}
    (hn : i < rows.length) (h : i ∉ qcOf rows) :
    ((stdOf rows).getD i none).isSome = true := by
  by_contra hc
  have hnone : ((stdOf rows).getD i none).isNone = true := by
    cases hval : (stdOf rows).getD i none with
    | none => rfl
    | some d => rw [hval] at hc; exact absurd rfl hc
  exact h (subset_qb_qc (subset_qa_qb (mem_qaOf.2 ⟨hn, hnone⟩)))

theorem mem_cleanIndices {rows : List Row} {i : Nat} :
    i ∈ cleanIndices (pipeline rows) ↔ i < rows.length ∧ i ∉ qcOf rows := by
  rw [cleanIndices, pipeline_rowsEq, pipeline_stdEq, pipeline_qEq]
  rw [List.mem_filter, List.mem_range]
  constructor
  · rintro ⟨h1, h2⟩
    rw [Bool.and_eq_true, contains_eq_decide_mem, Bool.not_eq_true',
      decide_eq_false_iff_not] at h2
    exact ⟨h1, h2.1⟩
  · rintro ⟨h1, h2⟩
    refine ⟨h1, ?_⟩
    rw [Bool.and_eq_true, contains_eq_decide_mem, Bool.not_eq_true',
      decide_eq_false_iff_not]
    exact ⟨h2, std_isSome_of_not_qc h1 h2⟩

theorem clean_add_quarantined (rows : List Row) :
    (cleanIndices (pipeline rows)).length + (qcOf rows).length =
      rows.length := by
  have hfeq : cleanIndices (pipeline rows) =
      (List.range rows.length).filter
        (fun i => !((qcOf rows).contains i)) := by
    rw [cleanIndices, pipeline_rowsEq, pipeline_stdEq, pipeline_qEq]
    apply List.filter_congr
    intro x hx
    rw [List.mem_range] at hx
    by_cases hq : x ∈ qcOf rows
    · simp [contains_eq_decide_mem, hq]
    · have hs := std_isSome_of_not_qc hx hq
      simp only [List.getD_eq_getElem?_getD] at hs
      simp [contains_eq_decide_mem, hq, hs]
  have hperm : List.Perm ((List.range rows.length).filter
      (fun i => (qcOf rows).contains i)) (qcOf rows) := by
    apply (List.perm_ext_iff_of_nodup ((List.nodup_range _).filter _)
      (nodup_qcOf rows)).2
    intro a
    rw [List.mem_filter, List.mem_range, contains_eq_decide_mem]
    constructor
    · rintro ⟨_, h2⟩
      exact of_decide_eq_true h2
    · intro h
      exact ⟨qcOf_lt h, decide_eq_true h⟩
  have hsplit :=
    List.length_eq_length_filter_add (l := List.range rows.length)
      (fun i => (qcOf rows).contains i)
  rw [List.length_range] at hsplit
  rw [hfeq]
  have hlen := hperm.length_eq
  omega

/-! ### Date formatting and parsing roundtrip -/

theorem digit_facts : ∀ r < 10, ((Char.ofNat (48 + r)).isDigit = true ∧
    (Char.ofNat (48 + r)).toNat = 48 + r ∧
    isSpaceChar (Char.ofNat (48 + r)) = false ∧
    (Char.ofNat (48 + r) == '-') = false) := by decide

theorem digitChar_isDigit (n : Nat) : (digitChar n).isDigit = true :=
  (digit_facts (n % 10) (Nat.mod_lt _ (by norm_num))).1

theorem digitChar_toNat (n : Nat) : (digitChar n).toNat = 48 + n % 10 :=
  (digit_facts (n % 10) (Nat.mod_lt _ (by norm_num))).2.1

theorem digitChar_not_space (n : Nat) : isSpaceChar (digitChar n) = false :=
  (digit_facts (n % 10) (Nat.mod_lt _ (by norm_num))).2.2.1

theorem digitChar_ne_dash (n : Nat) : (digitChar n == '-') = false :=
  (digit_facts (n % 10) (Nat.mod_lt _ (by norm_num))).2.2.2

theorem trimChars_eq_self {l : List Char}
    (h : ∀ c ∈ l, isSpaceChar c = false) : trimChars l = l := by
  rw [trimChars]
  have h1 : l.dropWhile isSpaceChar = l := by
    cases l with
    | nil => rfl
    | cons c t =>
      rw [List.dropWhile_cons, h c (List.mem_cons_self _ _)]
      simp
  rw [h1]
  have h2 : l.reverse.dropWhile isSpaceChar = l.reverse := by
    cases hr : l.reverse with
    | nil => rfl
    | cons c t =>
      have hc : c ∈ l := by
        rw [← List.mem_reverse, hr]
        exact List.mem_cons_self _ _
      rw [List.dropWhile_cons, h c hc]
      simp
  rw [h2, List.reverse_reverse]

theorem formatDate_no_space (d : Date) :
    ∀ c ∈ formatDate d, isSpaceChar c = false := by
  intro c hc
  rw [formatDate, pad4, pad2, pad2] at hc
  simp only [List.mem_append, List.mem_cons, List.not_mem_nil, or_false] at hc
  rcases hc with ((h | h | h | h) | h | (h | h) | h | h | h) <;>
    first
      | exact h ▸ digitChar_not_space _
      | exact h ▸ (by decide : isSpaceChar '-' = false)

theorem pad4_no_dash (n : Nat) : ∀ c ∈ pad4 n, (c == '-') = false := by
  intro c hc
  rw [pad4] at hc
  simp only [List.mem_cons, List.not_mem_nil, or_false] at hc
  rcases hc with h | h | h | h <;> exact h ▸ digitChar_ne_dash _

theorem pad2_no_dash (n : Nat) : ∀ c ∈ pad2 n, (c == '-') = false := by
  intro c hc
  rw [pad2] at hc
  simp only [List.mem_cons, List.not_mem_nil, or_false] at hc
  rcases hc with h | h <;> exact h ▸ digitChar_ne_dash _

theorem splitOnChar_ne_nil (sep : Char) :
    ∀ l : List Char, splitOnChar sep l ≠ [] := by
  intro l
  cases l with
  | nil => rw [splitOnChar]; exact List.cons_ne_nil _ _
  | cons c cs =>
    rw [splitOnChar]
    cases h : splitOnChar sep cs with
    | nil => exact List.cons_ne_nil _ _
    | cons g gs =>
      dsimp only
      by_cases hc : (c == sep) = true
      · rw [if_pos hc]; exact List.cons_ne_nil _ _
      · rw [if_neg hc]; exact List.cons_ne_nil _ _

theorem splitOnChar_no_sep {sep : Char} :
    ∀ l : List Char, (∀ c ∈ l, (c == sep) = false) →
      splitOnChar sep l = [l] := by
  intro l
  induction l with
  | nil => intro _; rfl
  | cons c t ih =>
    intro h
    rw [splitOnChar, ih (fun x hx => h x (List.mem_cons_of_mem _ hx)),
      h c (List.mem_cons_self _ _)]
    rfl

theorem splitOnChar_append_sep {sep : Char} :
    ∀ (a rest : List Char), (∀ c ∈ a, (c == sep) = false) →
      splitOnChar sep (a ++ sep :: rest) = a :: splitOnChar sep rest := by
  intro a
  induction a with
  | nil =>
    intro rest _
    rw [List.nil_append, splitOnChar]
    cases h : splitOnChar sep rest with
    | nil => exact absurd h (splitOnChar_ne_nil sep rest)
    | cons g gs => rw [beq_self_eq_true]; rfl
  | cons c a ih =>
    intro rest h
    rw [List.cons_append, splitOnChar,
      ih rest (fun x hx => h x (List.mem_cons_of_mem _ hx)),
      h c (List.mem_cons_self _ _)]
    rfl

theorem parseNatAcc_digitChar (cs : List Char) (n acc : Nat) :
    parseNatAcc (digitChar n :: cs) acc =
      parseNatAcc cs (10 * acc + n % 10) := by
  rw [parseNatAcc, if_pos (digitChar_isDigit n), digitChar_toNat]
  congr 1
  omega

theorem parseDigits_pad4 {y : Nat} (h : y ≤ 9999) :
    parseDigits (pad4 y) = some y := by
  rw [pad4, parseDigits, parseNatAcc_digitChar, parseNatAcc_digitChar,
    parseNatAcc_digitChar, parseNatAcc_digitChar, parseNatAcc]
  congr 1
  omega

theorem parseDigits_pad2 {m : Nat} (h : m ≤ 99) :
    parseDigits (pad2 m) = some m := by
  rw [pad2, parseDigits, parseNatAcc_digitChar, parseNatAcc_digitChar,
    parseNatAcc]
  congr 1
  omega

theorem pdParseDate_valid {s : String} {d : Date}
    (h : pdParseDate s = some d) : ValidDate d := by
  rw [pdParseDate] at h
  split at h
  · split at h
    · split at h
      · rename_i hcond
        injection h with h
        subst h
        simp only [Bool.and_eq_true, decide_eq_true_eq] at hcond
        obtain ⟨⟨⟨⟨h1, h2⟩, h3⟩, h4⟩, h5⟩ := hcond
        exact ⟨h1, h2, h3, h4, h5⟩
      · exact Option.noConfusion h
    · exact Option.noConfusion h
  · exact Option.noConfusion h

theorem formatDate_roundtrip {d : Date} (h : ValidDate d) :
    pdParseDate (String.mk (formatDate d)) = some d := by
  rw [pdParseDate]
  show (match splitOnChar '-' (trimChars (formatDate d)) with
    | [ys, ms, ds] =>
      match parseDigits ys, parseDigits ms, parseDigits ds with
      | some y, some m, some dd =>
        if y ≤ 9999 && 1 ≤ m && m ≤ 12 && 1 ≤ dd && dd ≤ 31 then
          some ⟨y, m, dd⟩
        else none
      | _, _, _ => none
    | _ => none) = some d
  rw [trimChars_eq_self (formatDate_no_space d), formatDate,
    splitOnChar_append_sep _ _ (pad4_no_dash d.year),
    splitOnChar_append_sep _ _ (pad2_no_dash d.month),
    splitOnChar_no_sep _ (pad2_no_dash d.day)]
  dsimp only
  obtain ⟨h1, h2, h3, h4, h5⟩ := h
  rw [parseDigits_pad4 h1, parseDigits_pad2 (by omega : d.month ≤ 99),
    parseDigits_pad2 (by omega : d.day ≤ 99)]
  dsimp only
  rw [if_pos]
  · simp only [Bool.and_eq_true, decide_eq_true_eq]
    exact ⟨⟨⟨⟨h1, h2⟩, h3⟩, h4⟩, h5⟩

/-! ### Validation depends only on the relevant cells -/

theorem emailCheckFails_congr {r r2 : Row} (h : r.email = r2.email) :
    emailCheckFails r = emailCheckFails r2 := by
  rw [emailCheckFails, emailCheckFails, emailNorm, emailNorm, h]

theorem nameCheckFails_congr {r r2 : Row} (h : r.name = r2.name) :
    nameCheckFails r = nameCheckFails r2 := by
  rw [nameCheckFails, nameCheckFails, nameNorm, nameNorm, h]

theorem fieldsCheckFails_congr {r r2 : Row} (hn : r.name = r2.name)
    (he : r.email = r2.email) (std : Option Date) :
    fieldsCheckFails r std = fieldsCheckFails r2 std := by
  unfold fieldsCheckFails
  rw [hn, he]

theorem failsValidation_congr {r r2 : Row} (hn : r.name = r2.name)
    (he : r.email = r2.email) (std : Option Date) :
    failsValidation r std = failsValidation r2 std := by
  rw [failsValidation, failsValidation, emailCheckFails_congr he,
    nameCheckFails_congr hn, fieldsCheckFails_congr hn he]

/-! ### Groups of distinct emails are singletons -/

theorem groupIdxs_le_one {rows : List Row}
    (h : (rows.map (fun r => r.email)).Nodup) (e : String) :
    (groupIdxs rows e).length ≤ 1 := by
  by_contra hc
  push_neg at hc
  obtain ⟨a, b, t, hab⟩ : ∃ a b t, groupIdxs rows e = a :: b :: t := by
    cases hg : groupIdxs rows e with
    | nil => rw [hg] at hc; simp at hc
    | cons a u =>
      cases hu : u with
      | nil => rw [hg, hu] at hc; simp at hc
      | cons b t => exact ⟨a, b, t, rfl⟩
  have ha : a ∈ groupIdxs rows e := by rw [hab]; exact List.mem_cons_self _ _
  have hb : b ∈ groupIdxs rows e := by
    rw [hab]; exact List.mem_cons_of_mem _ (List.mem_cons_self _ _)
  have hne : a ≠ b := by
    have hnd := nodup_groupIdxs rows e
    rw [hab] at hnd
    intro hcab
    exact (List.nodup_cons.1 hnd).1 (hcab ▸ List.mem_cons_self _ _)
  obtain ⟨han, hae⟩ := mem_groupIdxs.1 ha
  obtain ⟨hbn, hbe⟩ := mem_groupIdxs.1 hb
  have hma : a < (rows.map (fun r => r.email)).length := by
    rw [List.length_map]; exact han
  have hmb : b < (rows.map (fun r => r.email)).length := by
    rw [List.length_map]; exact hbn
  have ham : (rows.map (fun r => r.email)).get ⟨a, hma⟩ = e := by
    simp only [List.get_eq_getElem, List.getElem_map]
    rw [List.getD_eq_getElem _ _ han] at hae
    exact hae
  have hbm : (rows.map (fun r => r.email)).get ⟨b, hmb⟩ = e := by
    simp only [List.get_eq_getElem, List.getElem_map]
    rw [List.getD_eq_getElem _ _ hbn] at hbe
    exact hbe
  have heq := h.get_inj_iff.1 (ham.trans hbm.symm)
  exact hne (by simpa using heq)

/-! ### The pipeline on an already-clean dataset -/

theorem qaOf_eq_nil {rows : List Row}
    (h : ∀ i, i < rows.length → ((stdOf rows).getD i none).isSome = true) :
    qaOf rows = [] := by
  rw [qaOf, List.filter_eq_nil_iff]
  intro a ha
  rw [List.mem_range] at ha
  have hs := h a ha
  cases hval : (stdOf rows).getD a none with
  | none => rw [hval] at hs; exact Bool.noConfusion hs
  | some d => simp

theorem multiQb_trivial {rows : List Row}
    (hgroups : ∀ e ∈ emailKeys rows, (groupIdxs rows e).length ≤ 1) :
    multiQb rows = (rows.map (fun _ => false), qaOf rows) := by
  rw [multiQb,
    resolveList_id_of_small rows (stdOf rows) (emailKeys rows) _ hgroups]

theorem qcOf_trivial {rows : List Row}
    (hqa : qaOf rows = [])
    (hgroups : ∀ e ∈ emailKeys rows, (groupIdxs rows e).length ≤ 1)
    (hok : ∀ i, i < rows.length →
      failsValidation (rows.getD i default)
        ((stdOf rows).getD i none) = false) :
    qcOf rows = [] := by
  have hqb : qbOf rows = [] := by
    rw [qbOf, multiQb_trivial hgroups, hqa]
  rw [List.eq_nil_iff_forall_not_mem]
  intro j hj
  rcases mem_qcOf.1 hj with hj | ⟨hjn, hjf⟩
  · rw [hqb] at hj
    simp at hj
  · rw [hok j hjn] at hjf
    exact Bool.noConfusion hjf

theorem cleanIndices_trivial {rows : List Row} (hq : qcOf rows = []) :
    cleanIndices (pipeline rows) = List.range rows.length := by
  rw [cleanIndices, pipeline_rowsEq, pipeline_stdEq, pipeline_qEq]
  rw [List.filter_eq_self]
  intro a ha
  rw [List.mem_range] at ha
  have hnq : a ∉ qcOf rows := by rw [hq]; simp
  rw [Bool.and_eq_true, contains_eq_decide_mem, Bool.not_eq_true',
    decide_eq_false_iff_not]
  exact ⟨hnq, std_isSome_of_not_qc ha hnq⟩

theorem cleanOut_trivial {rows : List Row}
    (hgroups : ∀ e ∈ emailKeys rows, (groupIdxs rows e).length ≤ 1)
    (hq : qcOf rows = []) :
    cleanOut (pipeline rows) = rows.map (fun r =>
      ⟨r.name, r.email, r.signup_date, false,
        (pdParseDate r.signup_date).map
          (fun d => String.mk (formatDate d))⟩) := by
  have hmulti : multiOf rows = rows.map (fun _ => false) := by
    rw [multiOf, multiQb_trivial hgroups]
  rw [cleanOut, cleanIndices_trivial hq]
  apply List.ext_getElem
  · simp
  · intro k h1 h2
    rw [List.length_map, List.length_range] at h1
    simp only [List.getElem_map, List.getElem_range]
    rw [outRow, pipeline_rowsEq, pipeline_stdEq, pipeline_multiEq,
      hmulti, getD_const_false, stdOf_getD h1,
      List.getD_eq_getElem _ _ h1]

/-- Every member of the clean output comes from a clean index, carries the
standardized date of that index, and passed validation with its own cells. -/
theorem cleanOut_mem_spec {rows : List Row} {o : OutRow}
    (h : o ∈ cleanOut (pipeline rows)) :
    ∃ i, i < rows.length ∧ i ∉ qcOf rows ∧
      ∃ d, pdParseDate ((rows.getD i default).signup_date) = some d ∧
        ValidDate d ∧
        o.name = (rows.getD i default).name ∧
        o.email = (rows.getD i default).email ∧
        o.is_multi_plan = (multiOf rows).getD i false ∧
        o.signup_date_std = some (String.mk (formatDate d)) ∧
        failsValidation (rows.getD i default) (some d) = false := by
  rw [cleanOut, List.mem_map] at h
  obtain ⟨i, hi, ho⟩ := h
  obtain ⟨hin, hiq⟩ := mem_cleanIndices.1 hi
  have hsome := std_isSome_of_not_qc hin hiq
  obtain ⟨d, hd⟩ : ∃ d, (stdOf rows).getD i none = some d := by
    cases hval : (stdOf rows).getD i none with
    | none => rw [hval] at hsome; exact Bool.noConfusion hsome
    | some d => exact ⟨d, rfl⟩
  have hpd : pdParseDate ((rows.getD i default).signup_date) = some d := by
    rw [← stdOf_getD hin]
    exact hd
  have hfails : failsValidation (rows.getD i default) (some d) = false := by
    cases hf : failsValidation (rows.getD i default)
        ((stdOf rows).getD i none) with
    | false => rw [hd] at hf; exact hf
    | true => exact absurd (mem_qcOf.2 (Or.inr ⟨hin, hf⟩)) hiq
  refine ⟨i, hin, hiq, d, hpd, pdParseDate_valid hpd, ?_, ?_, ?_, ?_, hfails⟩
  · rw [← ho, outRow, pipeline_rowsEq]
  · rw [← ho, outRow, pipeline_rowsEq]
  · rw [← ho, outRow, pipeline_multiEq]
  · rw [← ho, outRow, pipeline_stdEq, hd]
    rfl

/-! ### The claims -/

/-- C1: the spec says a record passes the email check when its trimmed,
lowercased email contains `@` and the domain (substring after `@`) contains
a `.`. The code instead evaluates `'.' not in email.split('@')[1:]`, a
membership test on the LIST of components, so `a@b.com` — valid per the
spec — fails the code's check and the whole row is quarantined: a code bug
(the spec and the code's own comment describe the intent). -/
theorem C1_email_check_code_bug :
    specEmailInvalid "a@b.com" = false ∧
    emailCheckFails ⟨"Alice Jones", "a@b.com", "2023-01-01"⟩ = true ∧
    (pipeline [⟨"Alice Jones", "a@b.com", "2023-01-01"⟩]).q = [0] ∧
    cleanIndices (pipeline [⟨"Alice Jones", "a@b.com", "2023-01-01"⟩]) = [] := by
  decide

/-- C2: every input record ends in exactly one of the two outputs — an index
is clean exactly when it is not quarantined, quarantined indices are genuine
row indices, and the two output sizes add up to the input row count (the
spec's allowed discrepancy is 0). -/
theorem C2_partition (rows : List Row) :
    ((cleanIndices (pipeline rows)).length + (pipeline rows).q.length =
      rows.length) ∧
    (∀ i, i < rows.length →
      (i ∈ cleanIndices (pipeline rows) ↔ i ∉ (pipeline rows).q)) ∧
    (∀ i, i ∈ (pipeline rows).q → i < rows.length) := by
  refine ⟨?_, ?_, ?_⟩
  · rw [pipeline_qEq]
    exact clean_add_quarantined rows
  · intro i hi
    rw [pipeline_qEq, mem_cleanIndices]
    constructor
    · rintro ⟨_, h⟩
      exact h
    · intro h
      exact ⟨hi, h⟩
  · intro i hi
    rw [pipeline_qEq] at hi
    exact qcOf_lt hi

theorem C2_partition_witness :
    ((cleanIndices (pipeline rowsW)).length + (pipeline rowsW).q.length =
      rowsW.length) ∧
    (0 ∈ cleanIndices (pipeline rowsW) ↔ 0 ∉ (pipeline rowsW).q) ∧
    (0 ∈ cleanIndices (pipeline rowsW)) :=
  ⟨(C2_partition rowsW).1, (C2_partition rowsW).2.1 0 (by decide), by decide⟩

/-- C3 counterexample: the outputs do NOT contain exactly one `signup_date`
column. The code keeps the original raw `signup_date` column and then
renames the appended `signup_date_standardized` column to `signup_date` as
well, so the output header carries the name twice. -/
theorem C3_columns_counterexample :
    outputColumns =
      ["name", "email", "signup_date", "is_multi_plan", "signup_date"] ∧
    ¬ outputColumns.count "signup_date" = 1 := by
  decide

/-- C3 amended: both outputs carry the original columns (the raw
`signup_date` included) with `is_multi_plan` appended and the standardized
date column renamed to `signup_date` appended last — hence two columns named
`signup_date` — and for every clean record the renamed standardized column
holds the standardized `YYYY-MM-DD` value. -/
theorem C3_columns_amended :
    outputColumns =
      ["name", "email", "signup_date", "is_multi_plan", "signup_date"] ∧
    ∀ (rows : List Row), ∀ o ∈ cleanOut (pipeline rows),
      ∃ d, ValidDate d ∧
        o.signup_date_std = some (String.mk (formatDate d)) := by
  refine ⟨by decide, ?_⟩
  intro rows o ho
  obtain ⟨i, _, _, d, _, hvalid, _, _, _, hstd, _⟩ := cleanOut_mem_spec ho
  exact ⟨d, hvalid, hstd⟩

theorem C3_columns_witness :
    ∃ d, ValidDate d ∧
      (⟨"Maria", "a@.", "2023-05-02", false, some "2023-05-02"⟩ :
        OutRow).signup_date_std = some (String.mk (formatDate d)) :=
  C3_columns_amended.2 rowsW _ (by decide)

/-- C4 counterexample: the pass-(b) survivor of the `a@b.com` group is
flagged `is_multi_plan = true` and then quarantined by the validator (the
email check), so the quarantined output contains a record with
`is_multi_plan = true`, refuting the claim's last part. -/
theorem C4_flag_in_quarantine_counterexample :
    (quarantinedOut (pipeline rowsC6)).map (fun o => o.is_multi_plan) =
      [false, true] ∧
    (pipeline rowsC6).q = [0, 1] ∧
    cleanOut (pipeline rowsC6) = [] := by
  decide

/-- C4 amended: `is_multi_plan = true` is set only on the single surviving
member of its raw-email group — the group has more than one member, the
survivor is not date-quarantined, its standardized date is maximal among the
group's non-date-quarantined members, and no other row of the same email is
flagged. (The flagged survivor may still be quarantined later by the
validator, so the quarantined output can carry the flag.) -/
theorem C4_flag_only_on_survivor (rows : List Row) (i : Nat)
    (h : (multiOf rows).getD i false = true) :
    1 < (groupIdxs rows (rows.getD i default).email).length ∧
    i ∈ groupIdxs rows (rows.getD i default).email ∧
    i ∉ qaOf rows ∧
    (∃ d, (stdOf rows).getD i none = some d ∧
      ∀ j dj, j ∈ groupIdxs rows (rows.getD i default).email →
        j ∉ qaOf rows → (stdOf rows).getD j none = some dj →
          dateVal dj ≤ dateVal d) ∧
    (∀ j, (rows.getD j default).email = (rows.getD i default).email →
      (multiOf rows).getD j false = true → j = i) := by
  obtain ⟨e, heK, hlen, hsel⟩ := multiOf_iff.1 h
  obtain ⟨d, hd, hiq, hig, hmax, _⟩ := selectSurvivor_some hsel
  have hie : (rows.getD i default).email = e := (mem_groupIdxs.1 hig).2
  rw [hie]
  refine ⟨hlen, hig, hiq, ⟨d, hd, fun j dj hj hjq hjd => hmax j dj hj hjq hjd⟩,
    ?_⟩
  intro j hje hj
  obtain ⟨e2, he2K, hlen2, hsel2⟩ := multiOf_iff.1 hj
  obtain ⟨d2, hd2, hjq2, hjg2, _, _⟩ := selectSurvivor_some hsel2
  have hje2 : (rows.getD j default).email = e2 := (mem_groupIdxs.1 hjg2).2
  have he2e : e2 = e := by rw [← hje2, hje]
  rw [he2e] at hsel2
  rw [hsel] at hsel2
  exact (Option.some_injective _ hsel2).symm

theorem C4_flag_only_on_survivor_witness :
    1 < (groupIdxs rowsC6 (rowsC6.getD 1 default).email).length ∧
    1 ∈ groupIdxs rowsC6 (rowsC6.getD 1 default).email ∧
    1 ∉ qaOf rowsC6 :=
  ⟨(C4_flag_only_on_survivor rowsC6 1 (by decide)).1,
   (C4_flag_only_on_survivor rowsC6 1 (by decide)).2.1,
   (C4_flag_only_on_survivor rowsC6 1 (by decide)).2.2.1⟩

/-- C6: the spec's duplicate example diverges from the code: the surviving
`2023-06-15` row is flagged but then quarantined by the buggy email check
(`a@b.com` fails `'.' not in email.split('@')[1:]`), so the clean output is
empty and both rows land in quarantine — a code bug, the spec example being
the documented intent. -/
theorem C6_duplicate_example_code_bug :
    cleanIndices (pipeline rowsC6) = [] ∧
    cleanOut (pipeline rowsC6) = [] ∧
    (pipeline rowsC6).q = [0, 1] ∧
    (multiOf rowsC6).getD 1 false = true := by
  decide

/-- C10: the quarantine index list never holds the same index twice, so the
quarantined output has one row per quarantined record and its size equals
the number of distinct quarantined indices. -/
theorem C10_no_duplicate_quarantine (rows : List Row) :
    (pipeline rows).q.Nodup ∧
    (quarantinedOut (pipeline rows)).length =
      (pipeline rows).q.dedup.length := by
  have hnd : (qcOf rows).Nodup := nodup_qcOf rows
  refine ⟨by rw [pipeline_qEq]; exact hnd, ?_⟩
  rw [quarantinedOut, List.length_map, pipeline_qEq,
    List.dedup_eq_self.2 hnd]

theorem nameCheckFails_test_user {r : Row} (h : r.name = "Test User") :
    nameCheckFails r = true := by
  have hnorm : nameNorm r = trimChars ("Test User".data.map lowerChar) := by
    rw [nameNorm, h]
  unfold nameCheckFails
  rw [hnorm]
  decide

/-- C5: per email group, the duplicate resolver leaves size-≤1 groups
untouched; on a larger group it quarantines exactly the members other than
the survivor that were not already quarantined, and the survivor — when one
exists — is an unquarantined member with a standardized date maximal among
the group's unquarantined members under strict greater-than comparison
(every earlier-encountered eligible member is strictly older, so ties keep
the first encountered), and gets `is_multi_plan` set; a group whose members
are all already quarantined yields no survivor and no flag. -/
theorem C5_duplicate_resolver (std : List (Option Date)) (idxs : List Nat)
    (m : List Bool) (q : List Nat) :
    (idxs.length ≤ 1 → processGroup std idxs (m, q) = (m, q)) ∧
    (1 < idxs.length →
      ((∀ j, j ∈ (processGroup std idxs (m, q)).2 ↔
          (j ∈ q ∨ (j ∈ idxs ∧ selectSurvivor std q idxs ≠ some j))) ∧
       (∀ i, selectSurvivor std q idxs = some i →
          (i ∈ idxs ∧ i ∉ q ∧
           (processGroup std idxs (m, q)).1 = m.set i true ∧
           ∃ d, std.getD i none = some d ∧
             (∀ j dj, j ∈ idxs → j ∉ q → std.getD j none = some dj →
               dateVal dj ≤ dateVal d) ∧
             ∃ l1 l2, idxs = l1 ++ i :: l2 ∧
               ∀ j dj, j ∈ l1 → j ∉ q → std.getD j none = some dj →
                 dateVal dj < dateVal d)) ∧
       ((∀ j ∈ idxs, j ∈ q) → selectSurvivor std q idxs = none) ∧
       (selectSurvivor std q idxs = none →
          (processGroup std idxs (m, q)).1 = m))) := by
  constructor
  · intro hle
    exact processGroup_small _ (by omega)
  · intro hlen
    refine ⟨?_, ?_, ?_, ?_⟩
    · intro j
      rw [processGroup_big m q hlen]
      exact mem_quarantineOthers _ _ _ _
    · intro i hsel
      obtain ⟨d, hd, hiq, hig, hmax, l1, l2, hsplit, hstrict⟩ :=
        selectSurvivor_some hsel
      refine ⟨hig, hiq, ?_, d, hd, fun j dj hj hjq hjd => hmax j dj hj hjq hjd,
        l1, l2, hsplit, fun j dj hj hjq hjd => hstrict j dj hj hjq hjd⟩
      rw [processGroup_big m q hlen, hsel]
    · intro hall
      exact selectSurvivor_all_quarantined hall
    · intro hsel
      rw [processGroup_big m q hlen, hsel]

theorem C5_duplicate_resolver_witness :
    ((processGroup (stdOf rowsC6) [0, 1] ([false, false], [])).1 =
      [false, false].set 1 true) ∧
    (0 ∈ (processGroup (stdOf rowsC6) [0, 1] ([false, false], [])).2 ↔
      (0 ∈ ([] : List Nat) ∨
        (0 ∈ [0, 1] ∧ selectSurvivor (stdOf rowsC6) [] [0, 1] ≠ some 0))) :=
  ⟨(((C5_duplicate_resolver (stdOf rowsC6) [0, 1] [false, false] []).2
      (by decide)).2.1 1 (by decide)).2.2.1,
   ((C5_duplicate_resolver (stdOf rowsC6) [0, 1] [false, false] []).2
      (by decide)).1 0⟩

/-- C7: the validator removes a not-yet-quarantined record exactly when the
short-circuited disjunction email-check-fails, else name-check-fails, else
completeness-fails is true (that disjunction, in this order, is the
definition of a validation failure); in particular any record with a
blocklist name that is still unquarantined when it reaches the name check is
quarantined, and a row named `"Test User"` always ends up quarantined. -/
theorem C7_validator_order (rows : List Row) (i : Nat) (h : i < rows.length) :
    (failsValidation (rows.getD i default) ((stdOf rows).getD i none) =
      (emailCheckFails (rows.getD i default) ||
        (nameCheckFails (rows.getD i default) ||
          fieldsCheckFails (rows.getD i default)
            ((stdOf rows).getD i none)))) ∧
    (i ∈ (pipeline rows).q ↔
      (i ∈ qbOf rows ∨
        failsValidation (rows.getD i default)
          ((stdOf rows).getD i none) = true)) ∧
    (nameCheckFails (rows.getD i default) = true → i ∈ (pipeline rows).q) ∧
    ((rows.getD i default).name = "Test User" → i ∈ (pipeline rows).q) := by
  have hmem : i ∈ (pipeline rows).q ↔
      (i ∈ qbOf rows ∨
        failsValidation (rows.getD i default)
          ((stdOf rows).getD i none) = true) := by
    rw [pipeline_qEq, mem_qcOf]
    constructor
    · rintro (h1 | ⟨_, h2⟩)
      · exact Or.inl h1
      · exact Or.inr h2
    · rintro (h1 | h2)
      · exact Or.inl h1
      · exact Or.inr ⟨h, h2⟩
  have hname : nameCheckFails (rows.getD i default) = true →
      i ∈ (pipeline rows).q := by
    intro hn
    apply hmem.2
    refine Or.inr ?_
    rw [failsValidation, hn]
    simp
  refine ⟨rfl, hmem, hname, ?_⟩
  intro htest
  exact hname (nameCheckFails_test_user htest)

theorem C7_validator_order_witness : 0 ∈ (pipeline rowsTU).q :=
  (C7_validator_order rowsTU 0 (by decide)).2.2.2 (by decide)

/-- C8: a record whose date fails to parse is absorbed, never raised (the
embedding is a total function of the row list): its standardized date stays
unset, it is added to the pass-(a) quarantine set and stays quarantined in
the final output, it can never be the selected survivor of any duplicate
group, and it never carries the multi-plan flag; all other records are
unaffected (each pass-(a) cell depends only on its own row). -/
theorem C8_parse_failure_absorbed (rows : List Row) (i : Nat)
    (h : i < rows.length)
    (hp : pdParseDate ((rows.getD i default).signup_date) = none) :
    (stdOf rows).getD i none = none ∧
    i ∈ qaOf rows ∧
    i ∈ (pipeline rows).q ∧
    (∀ q idxs, selectSurvivor (stdOf rows) q idxs ≠ some i) ∧
    (multiOf rows).getD i false = false ∧
    (∀ j, j < rows.length →
      (stdOf rows).getD j none =
        pdParseDate ((rows.getD j default).signup_date)) := by
  have hstd : (stdOf rows).getD i none = none := by
    rw [stdOf_getD h, hp]
  have hqa : i ∈ qaOf rows := mem_qaOf.2 ⟨h, by rw [hstd]; rfl⟩
  have hsurv : ∀ q idxs, selectSurvivor (stdOf rows) q idxs ≠ some i := by
    intro q idxs hc
    obtain ⟨d, hd, _⟩ := selectSurvivor_some hc
    rw [hstd] at hd
    exact Option.noConfusion hd
  have hmulti : (multiOf rows).getD i false = false := by
    cases hm : (multiOf rows).getD i false with
    | false => rfl
    | true =>
      obtain ⟨e, _, _, hsel⟩ := multiOf_iff.1 hm
      exact absurd hsel (hsurv _ _)
  refine ⟨hstd, hqa, ?_, hsurv, hmulti, fun j hj => stdOf_getD hj⟩
  rw [pipeline_qEq]
  exact subset_qb_qc (subset_qa_qb hqa)

theorem C8_parse_failure_witness :
    (stdOf rowsC8).getD 0 none = none ∧
    0 ∈ qaOf rowsC8 ∧
    0 ∈ (pipeline rowsC8).q :=
  ⟨(C8_parse_failure_absorbed rowsC8 0 (by decide) (by decide)).1,
   (C8_parse_failure_absorbed rowsC8 0 (by decide) (by decide)).2.1,
   (C8_parse_failure_absorbed rowsC8 0 (by decide) (by decide)).2.2.1⟩

/-- C9 counterexample: a clean output with one record (no duplicate emails)
carrying `is_multi_plan = true`; re-running the pipeline on it re-initializes
the flag column to `False` and finds no duplicates, so the clean output of
the second run differs from the first (the flag is lost) — the clean set is
not unchanged. -/
theorem C9_idempotence_counterexample :
    ((cleanOut (pipeline rowsC9)).map (fun o => o.email)).Nodup ∧
    (cleanOut (pipeline rowsC9)).map (fun o => o.is_multi_plan) = [true] ∧
    cleanOut (pipeline ((cleanOut (pipeline rowsC9)).map rerunRow)) ≠
      cleanOut (pipeline rowsC9) := by
  decide

/-- C9 amended: when the clean output has no two records with the same
email, re-running the pipeline on it quarantines nothing and reproduces the
same clean records (same names, emails and standardized dates, in order);
however the `is_multi_plan` column is recomputed from its `False`
initialization, so every record of the second run's clean output carries
`is_multi_plan = false`, even where the first run had flagged it. -/
theorem C9_idempotence_amended (rows : List Row)
    (hnd : ((cleanOut (pipeline rows)).map (fun o => o.email)).Nodup) :
    (pipeline ((cleanOut (pipeline rows)).map rerunRow)).q = [] ∧
    cleanIndices (pipeline ((cleanOut (pipeline rows)).map rerunRow)) =
      List.range ((cleanOut (pipeline rows)).map rerunRow).length ∧
    (cleanOut (pipeline ((cleanOut (pipeline rows)).map rerunRow))).map
        (fun o => (o.name, o.email, o.signup_date_std)) =
      (cleanOut (pipeline rows)).map
        (fun o => (o.name, o.email, o.signup_date_std)) ∧
    (∀ o ∈ cleanOut (pipeline ((cleanOut (pipeline rows)).map rerunRow)),
      o.is_multi_plan = false) := by
  have hmem : ∀ r2 ∈ (cleanOut (pipeline rows)).map rerunRow,
      ∃ d, ValidDate d ∧ pdParseDate r2.signup_date = some d ∧
        failsValidation r2 (some d) = false := by
    intro r2 hr2
    rw [List.mem_map] at hr2
    obtain ⟨o, ho1, ho2⟩ := hr2
    obtain ⟨i, hin, hiq, d, hpd, hvalid, hname, hemail, _, hstd, hfails⟩ :=
      cleanOut_mem_spec ho1
    have hdate : r2.signup_date = String.mk (formatDate d) := by
      rw [← ho2]
      show o.signup_date_std.getD o.signup_date_raw = String.mk (formatDate d)
      rw [hstd]
      rfl
    have hn : r2.name = (rows.getD i default).name := by
      rw [← ho2]
      exact hname
    have he : r2.email = (rows.getD i default).email := by
      rw [← ho2]
      exact hemail
    refine ⟨d, hvalid, by rw [hdate]; exact formatDate_roundtrip hvalid, ?_⟩
    rw [failsValidation_congr hn he (some d)]
    exact hfails
  have hparseAll : ∀ k,
      k < ((cleanOut (pipeline rows)).map rerunRow).length →
      ((stdOf ((cleanOut (pipeline rows)).map rerunRow)).getD k
        none).isSome = true := by
    intro k hk
    rw [stdOf_getD hk]
    have hmem2 : ((cleanOut (pipeline rows)).map rerunRow).getD k default ∈
        (cleanOut (pipeline rows)).map rerunRow := by
      rw [List.getD_eq_getElem _ _ hk]
      exact List.getElem_mem hk
    obtain ⟨d, _, hp, _⟩ := hmem _ hmem2
    rw [hp]
    rfl
  have hmapemail : ((cleanOut (pipeline rows)).map rerunRow).map
      (fun r => r.email) = (cleanOut (pipeline rows)).map (fun o => o.email) := by
    rw [List.map_map]
    rfl
  have hnd2 : (((cleanOut (pipeline rows)).map rerunRow).map
      (fun r => r.email)).Nodup := by
    rw [hmapemail]
    exact hnd
  have hgroups : ∀ e ∈ emailKeys ((cleanOut (pipeline rows)).map rerunRow),
      (groupIdxs ((cleanOut (pipeline rows)).map rerunRow) e).length ≤ 1 :=
    fun e _ => groupIdxs_le_one hnd2 e
  have hok : ∀ k, k < ((cleanOut (pipeline rows)).map rerunRow).length →
      failsValidation (((cleanOut (pipeline rows)).map rerunRow).getD k
        default)
        ((stdOf ((cleanOut (pipeline rows)).map rerunRow)).getD k none) =
        false := by
    intro k hk
    rw [stdOf_getD hk]
    have hmem2 : ((cleanOut (pipeline rows)).map rerunRow).getD k default ∈
        (cleanOut (pipeline rows)).map rerunRow := by
      rw [List.getD_eq_getElem _ _ hk]
      exact List.getElem_mem hk
    obtain ⟨d, _, hp, hf⟩ := hmem _ hmem2
    rw [hp]
    exact hf
  have hqa2 := qaOf_eq_nil hparseAll
  have hqc2 := qcOf_trivial hqa2 hgroups hok
  have hclean2 := cleanIndices_trivial hqc2
  have hout2 := cleanOut_trivial hgroups hqc2
  refine ⟨by rw [pipeline_qEq]; exact hqc2, hclean2, ?_, ?_⟩
  · rw [hout2, List.map_map, List.map_map]
    apply List.map_congr_left
    intro o ho
    obtain ⟨i, hin, hiq, d, hpd, hvalid, hname, hemail, _, hstd, hfails⟩ :=
      cleanOut_mem_spec ho
    simp only [Function.comp_apply, rerunRow]
    rw [hstd]
    show (o.name, o.email,
        (pdParseDate ((some (String.mk (formatDate d))).getD
          o.signup_date_raw)).map (fun d => String.mk (formatDate d))) =
      (o.name, o.email, some (String.mk (formatDate d)))
    rw [Option.getD_some, formatDate_roundtrip hvalid]
    rfl
  · intro o ho
    rw [hout2, List.mem_map] at ho
    obtain ⟨r2, _, hr2⟩ := ho
    rw [← hr2]

theorem C9_idempotence_witness :
    (pipeline ((cleanOut (pipeline rowsW)).map rerunRow)).q = [] :=
  (C9_idempotence_amended rowsW (by decide)).1

end Cleanup
